import Mathlib

/-!
Verification development for the CACHE-FLOW query-cache-key convention
documented in this repository (source of truth: the complete implementation
listing in the installation guide, `src/queries/index.ts`).

The core under verification consists of
  - `createQueryGroupCRUD` (the CRUD key-group factory),
  - the `normalize` callbacks it installs on `detail`/`create`/`update`/`remove`,
  - `invalidateQueriesForKeys` / `cancelQueriesForKeys` (batch forwarding), and
  - `inyectKeysToQueries` (recursive extra-field injection).

Modelling conventions:
  - A JS object is modelled as an insertion-ordered association list
    `AListOn α = List (String × α)`; object spread `\x7b...a, ...b\x7d` is
    `spreadA a b` below, which overrides existing fields in place and appends
    new fields in `b`'s order, exactly as JS evaluation order does.
  - The generic identifier type parameter `T` of the source is instantiated
    at the model's universe `JVal` of primitive JS values (strings, booleans,
    integers, undefined); cache keys, result objects and extra mappings are
    `JSObj = AListOn JVal`.  `extra` mappings are scalar-valued, which is all
    the documentation ever passes (`auth`, `tenantId`, ...); the spread
    operation never inspects field values, so no generality that matters to
    the claims is lost.
  - The external cache engine (the TanStack `queryClient`) is not code of
    this repository.  Modelled from the spec: §6 gives it `setQueryData`
    keyed by structural equality on the key array, with an updater form, and
    storing `undefined` clears the slot (§4.1 "clear (set to
    undefined/absent)").  The cache is a key-to-data association list.
-/

/-- Primitive JS values appearing in cache keys, extra mappings and result
objects: strings, booleans, integers and `undefined`.  `undefined` is what a
JS property read yields for an absent field. -/
inductive JVal where
  | s : String → JVal
  | b : Bool → JVal
  | n : Int → JVal
  | undef : JVal
deriving DecidableEq, Repr

/-- An insertion-ordered JS object with values of type `α` (a JS object is an
ordered mapping from property names to values). -/
abbrev AListOn (α : Type) : Type := List (String × α)

/-- JS property-existence test `Object.prototype.hasOwnProperty.call(m, a)`. -/
def hasKeyA {α : Type} (m : AListOn α) (a : String) : Bool :=
  m.any (fun p => p.1 == a)

/-- Writing one property, as JS assignment / object spread does: if the
property exists, its value is overwritten in place (every occurrence, so that
raw association lists with duplicate names behave like the JS objects they
model); otherwise the property is appended at the end. -/
def setFieldA {α : Type} (m : AListOn α) (a : String) (v : α) : AListOn α :=
  if hasKeyA m a then m.map (fun p => if p.1 == a then (a, v) else p)
  else m ++ [(a, v)]

/-- JS object spread \x7b...m, ...e\x7d: all of `e`'s fields written onto `m`
left to right, so fields of `e` win on conflict and fresh fields of `e` are
appended in `e`'s order. -/
def spreadA {α : Type} (m e : AListOn α) : AListOn α :=
  e.foldl (fun acc p => setFieldA acc p.1 p.2) m

/-- Property read returning the first binding, i.e. the binding of a JS
object modelled by the list. -/
def lookupA {α : Type} (m : AListOn α) (a : String) : Option α :=
  (m.find? (fun p => p.1 == a)).map (fun p => p.2)

/-- A cache key / result object / extra mapping: a JS object with primitive
values (`QueryKey<T>` of the source is an open mapping of this shape). -/
abbrev JSObj : Type := List (String × JVal)

/-- JS property read `o.a`: the bound value, or `undefined` when absent. -/
def getJ (o : JSObj) (a : String) : JVal :=
  (lookupA o a).getD JVal.undef

/-- Interface `QueryGroup<T>`: an operation with a static `queryKey`, an
optional static `invalidates` key and an optional descriptive `type` tag
(the optional `normalize` callback of the source interface is modelled by the
standalone `..._normalize` functions below, because those closures read the
sibling operations' current keys at call time). -/
structure QueryGroup where
  queryKey : JSObj
  invalidates : Option JSObj
  type : Option String

/-- Interface `QueryGroupResolved<T>`: an operation whose `queryKey` is a
function of the identifier. -/
structure QueryGroupResolved where
  queryKey : JVal → JSObj
  type : Option String

/-- Interface `QueryGroupMutationResolved<T>`: a mutation operation with a
dynamic `queryKey` and a dynamic `invalidates` returning a list of keys. -/
structure QueryGroupMutationResolved where
  queryKey : JVal → JSObj
  invalidates : JVal → List JSObj
  type : Option String

/-- Interface `QueryGroupCRUD<T>`: the six named operations built by the
factory. -/
structure QueryGroupCRUD where
  all : QueryGroup
  list : QueryGroup
  detail : QueryGroupResolved
  create : QueryGroup
  update : QueryGroupMutationResolved
  remove : QueryGroupMutationResolved

/-- Static-or-dynamic cache key, the argument union of the source helper
`resolveKey` (`QueryKey<T> | ((...args: T[]) => QueryKey<T>)`). -/
inductive KeyOrFn where
  | key : JSObj → KeyOrFn
  | fn : (JVal → JSObj) → KeyOrFn

/-- Helper `resolveKey` of the source: `typeof key === 'function' ?
key(...args) : key`.  Every dynamic key in this code base is unary, so
calling with `[]` models the JS call `key()` whose parameter is then
`undefined` (never done by this code base, which always passes the id). -/
def resolveKey (key : KeyOrFn) (args : List JVal) : JSObj :=
  match key with
  | .key k => k
  | .fn f => f (args.headD JVal.undef)

/-- Factory `createQueryGroupCRUD` of the source, keys and invalidation sets
transcribed literally (the `normalize` closures are the `..._normalize`
functions below). -/
def createQueryGroupCRUD (entityName : String) : QueryGroupCRUD where
  all :=
    { queryKey := [("entity", JVal.s entityName)]
      invalidates := none
      type := none }
  list :=
    { queryKey := [("entity", JVal.s entityName), ("method", JVal.s "list")]
      invalidates := none
      type := some "query" }
  detail :=
    { queryKey := fun id =>
        [("entity", JVal.s entityName), ("method", JVal.s "detail"), ("id", id)]
      type := some "query" }
  create :=
    { queryKey := [("entity", JVal.s entityName), ("method", JVal.s "create")]
      invalidates := some [("entity", JVal.s entityName), ("method", JVal.s "list")]
      type := some "mutation" }
  update :=
    { queryKey := fun id =>
        [("entity", JVal.s entityName), ("method", JVal.s "update"), ("id", id)]
      invalidates := fun id =>
        [[("entity", JVal.s entityName), ("id", id)],
         [("entity", JVal.s entityName), ("method", JVal.s "list")]]
      type := some "mutation" }
  remove :=
    { queryKey := fun id =>
        [("entity", JVal.s entityName), ("method", JVal.s "remove"), ("id", id)]
      invalidates := fun id =>
        [[("entity", JVal.s entityName), ("id", id)],
         [("entity", JVal.s entityName), ("method", JVal.s "list")]]
      type := some "mutation" }

/-- Data held in one cache slot: a single entity object (detail slots) or an
array of entity objects (list slots). -/
inductive CacheData where
  | item : JSObj → CacheData
  | items : List JSObj → CacheData
deriving DecidableEq, Repr

/-- Modelled from the spec: the external cache engine's store (spec §6), an
association from key arrays (the `[key]` argument of `setQueryData`) to slot
data, compared by structural equality. -/
abbrev Cache : Type := List (List JSObj × CacheData)

/-- Modelled from the spec: reading a slot of the external engine. -/
def Cache.read (c : Cache) (k : List JSObj) : Option CacheData :=
  (c.find? (fun e => e.1 = k)).map (fun e => e.2)

/-- Removing every binding of a key (helper for writes). -/
def Cache.erase (c : Cache) (k : List JSObj) : Cache :=
  c.filter (fun e => ¬ (e.1 = k))

/-- Modelled from the spec: `queryClient.setQueryData([key], value)` with a
direct value; `none` models passing `undefined`, which clears the slot
(spec §4.1 "clear (set to undefined/absent)" and §6). -/
def setQueryData (c : Cache) (k : List JSObj) (v : Option CacheData) : Cache :=
  match v with
  | some d => (k, d) :: c.erase k
  | none => c.erase k

/-- Modelled from the spec: `queryClient.setQueryData([key], old => ...)`
with an updater that receives the current slot data (`undefined`, i.e.
`none`, when absent) and returns the new slot data. -/
def setQueryDataWith (c : Cache) (k : List JSObj)
    (f : Option CacheData → Option CacheData) : Cache :=
  setQueryData c k (f (c.read k))

/-!
The `normalize` closures of the source capture the sibling operation objects
`list` and `detail` by reference and read their `queryKey` at call time
(through `resolveKey`); `inyectKeysToQueries` mutates exactly those
`queryKey` fields in place.  The pure rendering of that mutable object graph
is to pass the group's current state to the callback, so each
`..._normalize` below takes the `QueryGroupCRUD` it belongs to and resolves
`g.list.queryKey` / `g.detail.queryKey` exactly where the source closure
resolves the captured references.
-/

/-- The `detail.normalize` closure of the source: replace the matching item
(by `item.id === data.id`) in the list slot, leave an absent list slot
absent (`if (!old) return old`).  A non-array list slot is outside the
spec's contract (§9 declares it undefined behaviour; the JS `.map` would
throw) and is modelled as left unchanged. -/
def detail_normalize (g : QueryGroupCRUD) (data : JSObj) (c : Cache) : Cache :=
  setQueryDataWith c [resolveKey (.key g.list.queryKey) []] (fun old =>
    match old with
    | none => none
    | some (CacheData.items l) =>
        some (CacheData.items
          (l.map (fun item => if getJ item "id" = getJ data "id" then data else item)))
    | some d => some d)

/-- The `create.normalize` closure of the source: seed the list slot with
`[data]` when absent, else append `data`; then write `data` to the
`detail(data.id)` slot.  Non-array list data: see `detail_normalize`. -/
def create_normalize (g : QueryGroupCRUD) (data : JSObj) (c : Cache) : Cache :=
  let c1 := setQueryDataWith c [resolveKey (.key g.list.queryKey) []] (fun old =>
    match old with
    | none => some (CacheData.items [data])
    | some (CacheData.items l) => some (CacheData.items (l ++ [data]))
    | some d => some d)
  setQueryData c1 [resolveKey (.fn g.detail.queryKey) [getJ data "id"]]
    (some (CacheData.item data))

/-- The `update.normalize` closure of the source: replace the matching item
in the list slot (absent slot left absent), then write `data` to the
`detail(data.id)` slot. -/
def update_normalize (g : QueryGroupCRUD) (data : JSObj) (c : Cache) : Cache :=
  let c1 := setQueryDataWith c [resolveKey (.key g.list.queryKey) []] (fun old =>
    match old with
    | none => none
    | some (CacheData.items l) =>
        some (CacheData.items
          (l.map (fun item => if getJ item "id" = getJ data "id" then data else item)))
    | some d => some d)
  setQueryData c1 [resolveKey (.fn g.detail.queryKey) [getJ data "id"]]
    (some (CacheData.item data))

/-- The `remove.normalize` closure of the source: filter the matching item
out of the list slot (absent slot left absent), then clear the
`detail(data.id)` slot by writing `undefined`. -/
def remove_normalize (g : QueryGroupCRUD) (data : JSObj) (c : Cache) : Cache :=
  let c1 := setQueryDataWith c [resolveKey (.key g.list.queryKey) []] (fun old =>
    match old with
    | none => none
    | some (CacheData.items l) =>
        some (CacheData.items (l.filter (fun item => ¬ getJ item "id" = getJ data "id")))
    | some d => some d)
  setQueryData c1 [resolveKey (.fn g.detail.queryKey) [getJ data "id"]] none

/-- C1: the queryKey shapes produced by the CRUD factory, exactly as in the
source literals. -/
theorem createQueryGroupCRUD_queryKeys (E : String) (i : JVal) :
    (createQueryGroupCRUD E).all.queryKey = [("entity", JVal.s E)] ∧
    (createQueryGroupCRUD E).list.queryKey
      = [("entity", JVal.s E), ("method", JVal.s "list")] ∧
    (createQueryGroupCRUD E).create.queryKey
      = [("entity", JVal.s E), ("method", JVal.s "create")] ∧
    (createQueryGroupCRUD E).detail.queryKey i
      = [("entity", JVal.s E), ("method", JVal.s "detail"), ("id", i)] ∧
    (createQueryGroupCRUD E).update.queryKey i
      = [("entity", JVal.s E), ("method", JVal.s "update"), ("id", i)] ∧
    (createQueryGroupCRUD E).remove.queryKey i
      = [("entity", JVal.s E), ("method", JVal.s "remove"), ("id", i)] := by
  refine ⟨rfl, rfl, rfl, rfl, rfl, rfl⟩

/-- C2: the invalidation sets produced by the CRUD factory: `update` and
`remove` invalidate exactly `[{entity, id}, {entity, method: list}]` in that
order, and `create` invalidates the single static list key. -/
theorem createQueryGroupCRUD_invalidates (E : String) (i : JVal) :
    (createQueryGroupCRUD E).update.invalidates i
      = [[("entity", JVal.s E), ("id", i)],
         [("entity", JVal.s E), ("method", JVal.s "list")]] ∧
    (createQueryGroupCRUD E).remove.invalidates i
      = [[("entity", JVal.s E), ("id", i)],
         [("entity", JVal.s E), ("method", JVal.s "list")]] ∧
    (createQueryGroupCRUD E).create.invalidates
      = some [("entity", JVal.s E), ("method", JVal.s "list")] := by
  refine ⟨rfl, rfl, rfl⟩

theorem Cache.read_cons (e : List JSObj × CacheData) (c : Cache) (k : List JSObj) :
    Cache.read (e :: c) k = if e.1 = k then some e.2 else c.read k := by
  by_cases h : e.1 = k <;> simp [Cache.read, List.find?_cons, h]

theorem Cache.read_erase_self (c : Cache) (k : List JSObj) :
    (c.erase k).read k = none := by
  induction c with
  | nil => rfl
  | cons e c ih =>
      by_cases h : e.1 = k
      · rw [show Cache.erase (e :: c) k = Cache.erase c k from by simp [Cache.erase, h]]
        exact ih
      · rw [show Cache.erase (e :: c) k = e :: Cache.erase c k from by
          simp [Cache.erase, h]]
        rw [Cache.read_cons, if_neg h]
        exact ih

theorem Cache.read_erase_of_ne (c : Cache) (k k' : List JSObj) (h : k' ≠ k) :
    (c.erase k).read k' = c.read k' := by
  induction c with
  | nil => rfl
  | cons e c ih =>
      by_cases he : e.1 = k
      · have hne : ¬ e.1 = k' := fun hc => h (by rw [← hc, he])
        rw [show Cache.erase (e :: c) k = Cache.erase c k from by simp [Cache.erase, he]]
        rw [ih, Cache.read_cons, if_neg hne]
      · rw [show Cache.erase (e :: c) k = e :: Cache.erase c k from by
          simp [Cache.erase, he]]
        rw [Cache.read_cons, Cache.read_cons, ih]

theorem read_setQueryData_self (c : Cache) (k : List JSObj) (v : Option CacheData) :
    (setQueryData c k v).read k = v := by
  cases v with
  | some d => simp [setQueryData, Cache.read_cons]
  | none => simpa [setQueryData] using Cache.read_erase_self c k

theorem read_setQueryData_of_ne (c : Cache) (k k' : List JSObj)
    (v : Option CacheData) (h : k' ≠ k) :
    (setQueryData c k v).read k' = c.read k' := by
  have hkk : ¬ k = k' := fun hc => h hc.symm
  cases v with
  | some d =>
      rw [show setQueryData c k (some d) = (k, d) :: c.erase k from rfl]
      rw [Cache.read_cons, if_neg hkk]
      exact Cache.read_erase_of_ne c k k' h
  | none => simpa [setQueryData] using Cache.read_erase_of_ne c k k' h

theorem read_setQueryDataWith_self (c : Cache) (k : List JSObj)
    (f : Option CacheData → Option CacheData) :
    (setQueryDataWith c k f).read k = f (c.read k) := by
  simpa [setQueryDataWith] using read_setQueryData_self c k (f (c.read k))

theorem read_setQueryDataWith_of_ne (c : Cache) (k k' : List JSObj)
    (f : Option CacheData → Option CacheData) (h : k' ≠ k) :
    (setQueryDataWith c k f).read k' = c.read k' := by
  simpa [setQueryDataWith] using read_setQueryData_of_ne c k k' (f (c.read k)) h

/-- The engine slot addressed by the factory's static list key for entity
`E`: the singleton key array `[list.queryKey]` the normalize closures pass to
`setQueryData`. -/
def listSlot (E : String) : List JSObj :=
  [[("entity", JVal.s E), ("method", JVal.s "list")]]

/-- The engine slot addressed by `detail.queryKey(i)` for entity `E`. -/
def detailSlot (E : String) (i : JVal) : List JSObj :=
  [[("entity", JVal.s E), ("method", JVal.s "detail"), ("id", i)]]

theorem listSlot_ne_detailSlot (E : String) (i : JVal) :
    listSlot E ≠ detailSlot E i := by
  simp [listSlot, detailSlot]

/-- C5: `create.normalize(data)` for `data` exposing an id seeds the list
slot with the one-element array `[data]` when it was absent, appends `data`
at the end of the existing array otherwise (existing items and their order
untouched), and in both cases writes `data` to the `detail(data.id)` slot. -/
theorem create_normalize_spec (E : String) (data : JSObj) (ι : JVal) (c : Cache)
    (hid : lookupA data "id" = some ι) :
    (c.read (listSlot E) = none →
      (create_normalize (createQueryGroupCRUD E) data c).read (listSlot E)
          = some (CacheData.items [data]) ∧
      (create_normalize (createQueryGroupCRUD E) data c).read (detailSlot E ι)
          = some (CacheData.item data)) ∧
    (∀ l, c.read (listSlot E) = some (CacheData.items l) →
      (create_normalize (createQueryGroupCRUD E) data c).read (listSlot E)
          = some (CacheData.items (l ++ [data])) ∧
      (create_normalize (createQueryGroupCRUD E) data c).read (detailSlot E ι)
          = some (CacheData.item data)) := by
  have hg : getJ data "id" = ι := by simp [getJ, hid]
  have hne : listSlot E ≠ detailSlot E ι := listSlot_ne_detailSlot E ι
  have hform : create_normalize (createQueryGroupCRUD E) data c =
      setQueryData
        (setQueryDataWith c (listSlot E) (fun old =>
          match old with
          | none => some (CacheData.items [data])
          | some (CacheData.items l) => some (CacheData.items (l ++ [data]))
          | some d => some d))
        (detailSlot E ι) (some (CacheData.item data)) := by
    simp [create_normalize, resolveKey, createQueryGroupCRUD, listSlot, detailSlot, hg]
  rw [hform]
  constructor
  · intro h0
    refine ⟨?_, ?_⟩
    · rw [read_setQueryData_of_ne _ _ _ _ hne, read_setQueryDataWith_self, h0]
    · rw [read_setQueryData_self]
  · intro l hl
    refine ⟨?_, ?_⟩
    · rw [read_setQueryData_of_ne _ _ _ _ hne, read_setQueryDataWith_self, hl]
    · rw [read_setQueryData_self]

/-- C5 witness: entity `e`, result `{id: x}`, empty cache: the list slot
becomes `[{id: x}]` and the detail slot for `x` becomes `{id: x}`. -/
theorem create_normalize_spec_witness :
    (create_normalize (createQueryGroupCRUD "e") [("id", JVal.s "x")] []).read
        (listSlot "e") = some (CacheData.items [[("id", JVal.s "x")]]) ∧
    (create_normalize (createQueryGroupCRUD "e") [("id", JVal.s "x")] []).read
        (detailSlot "e" (JVal.s "x")) = some (CacheData.item [("id", JVal.s "x")]) :=
  (create_normalize_spec "e" [("id", JVal.s "x")] (JVal.s "x") [] (by decide)).1
    (by decide)

/-- C6: against an existing list array, `update.normalize(data)` replaces
exactly the items whose `id` equals `data.id` by value (others untouched)
and writes `data` to the `detail(data.id)` slot; `remove.normalize(data)`
filters the matching items out and clears the `detail(data.id)` slot; and
when the list slot is absent, `update`/`remove`/`detail` normalize leave it
absent (only `create` fabricates a list). -/
theorem update_remove_detail_normalize_spec (E : String) (data : JSObj)
    (ι : JVal) (c : Cache) (hid : lookupA data "id" = some ι) :
    (∀ l, c.read (listSlot E) = some (CacheData.items l) →
      (update_normalize (createQueryGroupCRUD E) data c).read (listSlot E)
          = some (CacheData.items (l.map (fun item =>
              if getJ item "id" = getJ data "id" then data else item))) ∧
      (update_normalize (createQueryGroupCRUD E) data c).read (detailSlot E ι)
          = some (CacheData.item data)) ∧
    (∀ l, c.read (listSlot E) = some (CacheData.items l) →
      (remove_normalize (createQueryGroupCRUD E) data c).read (listSlot E)
          = some (CacheData.items (l.filter (fun item =>
              ¬ getJ item "id" = getJ data "id"))) ∧
      (remove_normalize (createQueryGroupCRUD E) data c).read (detailSlot E ι)
          = none) ∧
    (c.read (listSlot E) = none →
      (update_normalize (createQueryGroupCRUD E) data c).read (listSlot E) = none ∧
      (remove_normalize (createQueryGroupCRUD E) data c).read (listSlot E) = none ∧
      (detail_normalize (createQueryGroupCRUD E) data c).read (listSlot E) = none) := by
  have hg : getJ data "id" = ι := by simp [getJ, hid]
  have hne : listSlot E ≠ detailSlot E ι := listSlot_ne_detailSlot E ι
  have hupd : update_normalize (createQueryGroupCRUD E) data c =
      setQueryData
        (setQueryDataWith c (listSlot E) (fun old =>
          match old with
          | none => none
          | some (CacheData.items l) =>
              some (CacheData.items (l.map (fun item =>
                if getJ item "id" = getJ data "id" then data else item)))
          | some d => some d))
        (detailSlot E ι) (some (CacheData.item data)) := by
    simp [update_normalize, resolveKey, createQueryGroupCRUD, listSlot, detailSlot, hg]
  have hrem : remove_normalize (createQueryGroupCRUD E) data c =
      setQueryData
        (setQueryDataWith c (listSlot E) (fun old =>
          match old with
          | none => none
          | some (CacheData.items l) =>
              some (CacheData.items (l.filter (fun item =>
                ¬ getJ item "id" = getJ data "id")))
          | some d => some d))
        (detailSlot E ι) none := by
    simp [remove_normalize, resolveKey, createQueryGroupCRUD, listSlot, detailSlot, hg]
  have hdet : detail_normalize (createQueryGroupCRUD E) data c =
      setQueryDataWith c (listSlot E) (fun old =>
        match old with
        | none => none
        | some (CacheData.items l) =>
            some (CacheData.items (l.map (fun item =>
              if getJ item "id" = getJ data "id" then data else item)))
        | some d => some d) := by
    simp [detail_normalize, resolveKey, createQueryGroupCRUD, listSlot]
  refine ⟨?_, ?_, ?_⟩
  · intro l hl
    rw [hupd]
    refine ⟨?_, ?_⟩
    · rw [read_setQueryData_of_ne _ _ _ _ hne, read_setQueryDataWith_self, hl]
    · rw [read_setQueryData_self]
  · intro l hl
    rw [hrem]
    refine ⟨?_, ?_⟩
    · rw [read_setQueryData_of_ne _ _ _ _ hne, read_setQueryDataWith_self, hl]
    · rw [read_setQueryData_self]
  · intro h0
    rw [hupd, hrem, hdet]
    refine ⟨?_, ?_, ?_⟩
    · rw [read_setQueryData_of_ne _ _ _ _ hne, read_setQueryDataWith_self, h0]
    · rw [read_setQueryData_of_ne _ _ _ _ hne, read_setQueryDataWith_self, h0]
    · rw [read_setQueryDataWith_self, h0]

/-- C6 witness: entity `e`, update of `{id: a, name: new}` against the list
`[{id: a, name: old}, {id: b}]` replaces only the first item, and remove of
`{id: a}` against `[{id: a}, {id: b}]` leaves `[{id: b}]` with the detail
slot for `a` cleared. -/
theorem update_remove_detail_normalize_spec_witness :
    (update_normalize (createQueryGroupCRUD "e")
        [("id", JVal.s "a"), ("name", JVal.s "new")]
        [(listSlot "e", CacheData.items
          [[("id", JVal.s "a"), ("name", JVal.s "old")], [("id", JVal.s "b")]])]).read
        (listSlot "e")
      = some (CacheData.items
          [[("id", JVal.s "a"), ("name", JVal.s "new")], [("id", JVal.s "b")]]) ∧
    (remove_normalize (createQueryGroupCRUD "e") [("id", JVal.s "a")]
        [(listSlot "e", CacheData.items [[("id", JVal.s "a")], [("id", JVal.s "b")]]),
         (detailSlot "e" (JVal.s "a"), CacheData.item [("id", JVal.s "a")])]).read
        (listSlot "e")
      = some (CacheData.items [[("id", JVal.s "b")]]) ∧
    (remove_normalize (createQueryGroupCRUD "e") [("id", JVal.s "a")]
        [(listSlot "e", CacheData.items [[("id", JVal.s "a")], [("id", JVal.s "b")]]),
         (detailSlot "e" (JVal.s "a"), CacheData.item [("id", JVal.s "a")])]).read
        (detailSlot "e" (JVal.s "a"))
      = none := by
  refine ⟨?_, ?_, ?_⟩
  · have h := (update_remove_detail_normalize_spec "e"
      [("id", JVal.s "a"), ("name", JVal.s "new")] (JVal.s "a")
      [(listSlot "e", CacheData.items
        [[("id", JVal.s "a"), ("name", JVal.s "old")], [("id", JVal.s "b")]])]
      (by decide)).1
      [[("id", JVal.s "a"), ("name", JVal.s "old")], [("id", JVal.s "b")]]
      (by decide)
    have hmap := h.1
    simpa using hmap
  · have h := (update_remove_detail_normalize_spec "e" [("id", JVal.s "a")]
      (JVal.s "a")
      [(listSlot "e", CacheData.items [[("id", JVal.s "a")], [("id", JVal.s "b")]]),
       (detailSlot "e" (JVal.s "a"), CacheData.item [("id", JVal.s "a")])]
      (by decide)).2.1
      [[("id", JVal.s "a")], [("id", JVal.s "b")]] (by decide)
    have hfil := h.1
    simpa using hfil
  · exact ((update_remove_detail_normalize_spec "e" [("id", JVal.s "a")]
      (JVal.s "a")
      [(listSlot "e", CacheData.items [[("id", JVal.s "a")], [("id", JVal.s "b")]]),
       (detailSlot "e" (JVal.s "a"), CacheData.item [("id", JVal.s "a")])]
      (by decide)).2.1
      [[("id", JVal.s "a")], [("id", JVal.s "b")]] (by decide)).2

/-- A value inside an engine filter object (`InvalidateQueryFilters`):
either a query-key array (the `queryKey` field) or any other option value. -/
inductive FVal where
  | keys : List JSObj → FVal
  | v : JVal → FVal
deriving DecidableEq, Repr

/-- A filter object handed to the engine's `invalidateQueries` /
`cancelQueries`: a JS object of filter values. -/
abbrev QFilter : Type := AListOn FVal

/-- The filter object one engine call receives from
`invalidateQueriesForKeys`: the literal `\x7b queryKey: [key],
...invalidateOptions \x7d`, i.e. the spread of the options onto the
singleton-wrapped key (so an options field named `queryKey` overrides the
iterated key). -/
def mkInvalidateFilter (key : JSObj) (invalidateOptions : QFilter) : QFilter :=
  spreadA [("queryKey", FVal.keys [key])] invalidateOptions

/-- Batch helper `invalidateQueriesForKeys` of the source, rendered as the
sequence of filter objects passed to the engine's `invalidateQueries`, in
call order.  An input entry is `none` for a falsy key (`null`/`undefined`
from conditional expressions); `keys.filter(Boolean)` drops those and
`forEach` issues one engine call per remaining key. -/
def invalidateQueriesForKeys : List (Option JSObj) → QFilter → List QFilter
  | [], _ => []
  | none :: ks, opts => invalidateQueriesForKeys ks opts
  | some k :: ks, opts => mkInvalidateFilter k opts :: invalidateQueriesForKeys ks opts

/-- Batch helper `cancelQueriesForKeys` of the source, rendered as the
sequence of filter objects passed to the engine's `cancelQueries`, in call
order; same skip-falsy iteration, no options parameter. -/
def cancelQueriesForKeys : List (Option JSObj) → List QFilter
  | [] => []
  | none :: ks => cancelQueriesForKeys ks
  | some k :: ks => [("queryKey", FVal.keys [k])] :: cancelQueriesForKeys ks

/-- C7: both batch helpers issue exactly one engine call per truthy entry,
in input order, skipping falsy entries; `invalidateQueriesForKeys` passes
the key together with the passed-through options and `cancelQueriesForKeys`
passes the bare key filter; in particular
`invalidateQueriesForKeys [null, {entity: a}, undefined, {entity: b}]`
issues exactly the two calls for `{entity: a}` then `{entity: b}`. -/
theorem invalidate_cancel_forwarding :
    (∀ (keys : List (Option JSObj)) (opts : QFilter),
      invalidateQueriesForKeys keys opts
        = (keys.filterMap id).map (fun k => mkInvalidateFilter k opts)) ∧
    (∀ keys : List (Option JSObj),
      cancelQueriesForKeys keys
        = (keys.filterMap id).map (fun k => [("queryKey", FVal.keys [k])])) ∧
    invalidateQueriesForKeys
        [none, some [("entity", JVal.s "a")], none, some [("entity", JVal.s "b")]] []
      = [[("queryKey", FVal.keys [[("entity", JVal.s "a")]])],
         [("queryKey", FVal.keys [[("entity", JVal.s "b")]])]] := by
  refine ⟨?_, ?_, by decide⟩
  · intro keys opts
    induction keys with
    | nil => rfl
    | cons k ks ih =>
        cases k with
        | none => simpa [invalidateQueriesForKeys] using ih
        | some k => simp [invalidateQueriesForKeys, ih]
  · intro keys
    induction keys with
    | nil => rfl
    | cons k ks ih =>
        cases k with
        | none => simpa [cancelQueriesForKeys] using ih
        | some k => simp [cancelQueriesForKeys, ih]

/-- Characterisation of the JS property-existence test. -/
theorem hasKeyA_iff {α : Type} (m : AListOn α) (a : String) :
    hasKeyA m a = true ↔ ∃ p ∈ m, p.1 = a := by
  simp [hasKeyA, List.any_eq_true, beq_iff_eq]

/-- Every binding of name `a` in `m` carries the value `v` (for a JS object,
which has at most one binding per name, this says: if `a` is bound, it is
bound to `v`). -/
def AllVal {α : Type} (m : AListOn α) (a : String) (v : α) : Prop :=
  ∀ p ∈ m, p.1 = a → p.2 = v

theorem hasKeyA_setFieldA_self {α : Type} (m : AListOn α) (a : String) (v : α) :
    hasKeyA (setFieldA m a v) a = true := by
  by_cases h : hasKeyA m a
  · obtain ⟨p, hp, hpa⟩ := (hasKeyA_iff m a).1 h
    rw [setFieldA, if_pos h, hasKeyA_iff]
    refine ⟨(a, v), List.mem_map.2 ⟨p, hp, ?_⟩, rfl⟩
    simp [hpa]
  · rw [setFieldA, if_neg h, hasKeyA_iff]
    exact ⟨(a, v), List.mem_append_right _ (List.mem_singleton.2 rfl), rfl⟩

theorem hasKeyA_setFieldA_mono {α : Type} (m : AListOn α) (a b : String) (w : α)
    (hk : hasKeyA m a = true) : hasKeyA (setFieldA m b w) a = true := by
  obtain ⟨p, hp, hpa⟩ := (hasKeyA_iff m a).1 hk
  by_cases h : hasKeyA m b
  · rw [setFieldA, if_pos h, hasKeyA_iff]
    by_cases hpb : p.1 = b
    · exact ⟨(b, w), List.mem_map.2 ⟨p, hp, by simp [hpb]⟩, by rw [← hpb, hpa]⟩
    · exact ⟨p, List.mem_map.2 ⟨p, hp, by simp [hpb]⟩, hpa⟩
  · rw [setFieldA, if_neg h, hasKeyA_iff]
    exact ⟨p, List.mem_append_left _ hp, hpa⟩

theorem allVal_setFieldA_self {α : Type} (m : AListOn α) (a : String) (v : α) :
    AllVal (setFieldA m a v) a v := by
  intro p hp hpa
  by_cases h : hasKeyA m a
  · rw [setFieldA, if_pos h] at hp
    obtain ⟨q, hq, hfq⟩ := List.mem_map.1 hp
    by_cases hqa : q.1 = a
    · rw [if_pos (by simpa using hqa)] at hfq
      rw [← hfq]
    · rw [if_neg (by simpa using hqa)] at hfq
      rw [← hfq] at hpa
      exact absurd hpa hqa
  · rw [setFieldA, if_neg h] at hp
    rcases List.mem_append.1 hp with hm | hs
    · exact absurd ((hasKeyA_iff m a).2 ⟨p, hm, hpa⟩) (by simpa using h)
    · rw [List.mem_singleton.1 hs]

theorem allVal_setFieldA_other {α : Type} (m : AListOn α) (a b : String)
    (v w : α) (hba : b ≠ a) (hav : AllVal m a v) : AllVal (setFieldA m b w) a v := by
  intro p hp hpa
  by_cases h : hasKeyA m b
  · rw [setFieldA, if_pos h] at hp
    obtain ⟨q, hq, hfq⟩ := List.mem_map.1 hp
    by_cases hqb : q.1 = b
    · rw [if_pos (by simpa using hqb)] at hfq
      rw [← hfq] at hpa
      exact absurd hpa hba
    · rw [if_neg (by simpa using hqb)] at hfq
      rw [← hfq] at hpa ⊢
      exact hav q hq hpa
  · rw [setFieldA, if_neg h] at hp
    rcases List.mem_append.1 hp with hm | hs
    · exact hav p hm hpa
    · rw [List.mem_singleton.1 hs] at hpa
      exact absurd hpa hba

theorem setFieldA_of_allVal {α : Type} (m : AListOn α) (a : String) (v : α)
    (hk : hasKeyA m a = true) (hav : AllVal m a v) : setFieldA m a v = m := by
  rw [setFieldA, if_pos hk]
  have hpt : ∀ p ∈ m, (if p.1 == a then (a, v) else p) = p := by
    intro p hp
    by_cases hpa : p.1 = a
    · rw [if_pos (by simpa using hpa), ← hav p hp hpa, ← hpa]
    · rw [if_neg (by simpa using hpa)]
  rw [List.map_congr_left hpt]
  simp

theorem lookupA_of_allVal {α : Type} (m : AListOn α) (a : String) (v : α)
    (hk : hasKeyA m a = true) (hav : AllVal m a v) : lookupA m a = some v := by
  induction m with
  | nil => simp [hasKeyA] at hk
  | cons p m ih =>
      by_cases hpa : p.1 = a
      · rw [lookupA, List.find?_cons_of_pos _ (by simpa using hpa)]
        simp [hav p (List.mem_cons_self p m) hpa]
      · rw [lookupA, List.find?_cons_of_neg _ (by simpa using hpa)]
        have hk' : hasKeyA m a = true := by
          rcases (hasKeyA_iff _ a).1 hk with ⟨q, hq, hqa⟩
          rcases List.mem_cons.1 hq with rfl | hq'
          · exact absurd hqa hpa
          · exact (hasKeyA_iff m a).2 ⟨q, hq', hqa⟩
        exact ih hk' (fun q hq hqa => hav q (List.mem_cons_of_mem p hq) hqa)

theorem spreadA_cons {α : Type} (m : AListOn α) (q : String × α) (e : AListOn α) :
    spreadA m (q :: e) = spreadA (setFieldA m q.1 q.2) e := rfl

theorem allVal_hasKey_spreadA {α : Type} (e m : AListOn α) (a : String) (v : α)
    (hk : hasKeyA m a = true) (hav : AllVal m a v) (he : ∀ p ∈ e, p.1 ≠ a) :
    hasKeyA (spreadA m e) a = true ∧ AllVal (spreadA m e) a v := by
  induction e generalizing m with
  | nil => exact ⟨hk, hav⟩
  | cons q e ih =>
      rw [spreadA_cons]
      exact ih (setFieldA m q.1 q.2)
        (hasKeyA_setFieldA_mono m a q.1 q.2 hk)
        (allVal_setFieldA_other m a q.1 v q.2 (he q (List.mem_cons_self q e)) hav)
        (fun p hp => he p (List.mem_cons_of_mem q hp))

/-- Re-spreading the same JS object is the identity: every field of `e` is
already present with the same value, so each write replaces in place. -/
theorem spreadA_spreadA_self {α : Type} (e m : AListOn α)
    (hnd : (e.map Prod.fst).Nodup) : spreadA (spreadA m e) e = spreadA m e := by
  induction e generalizing m with
  | nil => rfl
  | cons q e ih =>
      have hni : q.1 ∉ e.map Prod.fst := (List.nodup_cons.1 hnd).1
      have hnd' : (e.map Prod.fst).Nodup := (List.nodup_cons.1 hnd).2
      have he : ∀ p ∈ e, p.1 ≠ q.1 := by
        intro p hp hc
        exact hni (hc ▸ List.mem_map_of_mem Prod.fst hp)
      rw [spreadA_cons, spreadA_cons]
      have h2 := allVal_hasKey_spreadA e (setFieldA m q.1 q.2) q.1 q.2
        (hasKeyA_setFieldA_self m q.1 q.2) (allVal_setFieldA_self m q.1 q.2) he
      rw [setFieldA_of_allVal _ _ _ h2.1 h2.2]
      exact ih _ hnd'

/-- Fields of `e` win when spread onto `m`: the value bound in `e` is the
value bound in the result. -/
theorem lookupA_spreadA_right {α : Type} (e m : AListOn α) (a : String) (v : α)
    (hnd : (e.map Prod.fst).Nodup) (hv : lookupA e a = some v) :
    lookupA (spreadA m e) a = some v := by
  induction e generalizing m with
  | nil => simp [lookupA] at hv
  | cons q e ih =>
      have hni : q.1 ∉ e.map Prod.fst := (List.nodup_cons.1 hnd).1
      have hnd' : (e.map Prod.fst).Nodup := (List.nodup_cons.1 hnd).2
      by_cases hqa : q.1 = a
      · have hveq : q.2 = v := by
          rw [lookupA, List.find?_cons_of_pos _ (by simpa using hqa)] at hv
          simpa using hv
        have he : ∀ p ∈ e, p.1 ≠ a := by
          intro p hp hc
          exact hni (by rw [hqa]; exact hc ▸ List.mem_map_of_mem Prod.fst hp)
        rw [spreadA_cons]
        have h2 := allVal_hasKey_spreadA e (setFieldA m q.1 q.2) a q.2
          (hqa ▸ hasKeyA_setFieldA_self m q.1 q.2)
          (hqa ▸ allVal_setFieldA_self m q.1 q.2) he
        rw [lookupA_of_allVal _ _ _ h2.1 h2.2, hveq]
      · rw [lookupA, List.find?_cons_of_neg _ (by simpa using hqa)] at hv
        rw [spreadA_cons]
        exact ih _ hnd' hv

theorem nodupKeys_setFieldA {α : Type} (m : AListOn α) (a : String) (v : α)
    (h : (m.map Prod.fst).Nodup) : ((setFieldA m a v).map Prod.fst).Nodup := by
  by_cases hk : hasKeyA m a
  · rw [setFieldA, if_pos hk]
    have : (m.map (fun p => if p.1 == a then (a, v) else p)).map Prod.fst
        = m.map Prod.fst := by
      rw [List.map_map]
      apply List.map_congr_left
      intro p _
      by_cases hpa : p.1 = a <;> simp [hpa]
    rw [this]
    exact h
  · rw [setFieldA, if_neg hk, List.map_append]
    have hna : a ∉ m.map Prod.fst := by
      intro hc
      rcases List.mem_map.1 hc with ⟨p, hp, hpa⟩
      exact hk ((hasKeyA_iff m a).2 ⟨p, hp, hpa⟩)
    refine List.Nodup.append h (List.nodup_singleton a) ?_
    intro x hx hx'
    have hxa : x = a := by simpa using hx'
    exact hna (hxa ▸ hx)

theorem nodupKeys_spreadA {α : Type} (e m : AListOn α)
    (h : (m.map Prod.fst).Nodup) : ((spreadA m e).map Prod.fst).Nodup := by
  induction e generalizing m with
  | nil => exact h
  | cons q e ih =>
      rw [spreadA_cons]
      exact ih (setFieldA m q.1 q.2) (nodupKeys_setFieldA m q.1 q.2 h)

/-- A node of the JS value graph traversed by `inyectKeysToQueries`: a
primitive value, a unary key-generating function (the dynamic `queryKey` /
`invalidates` members), an opaque non-key function (the `normalize`
closures, which the traversal passes through unchanged), an object, or an
array. -/
inductive JTree where
  | vl : JVal → JTree
  | fn : (JVal → JTree) → JTree
  | ofn : JTree
  | obj : List (String × JTree) → JTree
  | arr : List JTree → JTree

/-- Rendering a primitive-valued JS object as tree-valued object fields. -/
def toTreeFields (o : JSObj) : AListOn JTree :=
  o.map (fun p => (p.1, JTree.vl p.2))

/-- Count of object/array nodes of a tree, the termination measure of the
traversal: merging a scalar-valued `extra` into an object never increases
it, while every recursive call of the traversal strictly decreases it. -/
def cntTree : JTree → Nat
  | .vl _ => 0
  | .fn _ => 0
  | .ofn => 0
  | .obj [] => 1
  | .obj ((_, t) :: fs) => cntTree t + cntTree (.obj fs)
  | .arr [] => 1
  | .arr (t :: ts) => cntTree t + cntTree (.arr ts)

theorem cntTree_obj_pos (fs : AListOn JTree) : 1 ≤ cntTree (JTree.obj fs) := by
  induction fs with
  | nil => simp [cntTree]
  | cons p fs ih =>
      obtain ⟨a, t⟩ := p
      simp only [cntTree]
      omega

theorem cntTree_arr_pos (ts : List JTree) : 1 ≤ cntTree (JTree.arr ts) := by
  induction ts with
  | nil => simp [cntTree]
  | cons t ts ih =>
      simp only [cntTree]
      omega

theorem cntTree_lt_of_mem_fields (fs : AListOn JTree) (p : String × JTree)
    (hp : p ∈ fs) : cntTree p.2 < cntTree (JTree.obj fs) := by
  induction fs with
  | nil => cases hp
  | cons q fs ih =>
      obtain ⟨a, t⟩ := q
      rcases List.mem_cons.1 hp with rfl | hp'
      · have := cntTree_obj_pos fs
        simp only [cntTree]
        omega
      · have := ih hp'
        simp only [cntTree]
        omega

theorem cntTree_lt_of_mem_arr (ts : List JTree) (t : JTree) (ht : t ∈ ts) :
    cntTree t < cntTree (JTree.arr ts) := by
  induction ts with
  | nil => cases ht
  | cons u ts ih =>
      rcases List.mem_cons.1 ht with rfl | ht'
      · have := cntTree_arr_pos ts
        simp only [cntTree]
        omega
      · have := ih ht'
        simp only [cntTree]
        omega

theorem cntTree_obj_map_le (fs : AListOn JTree) (f : String × JTree → String × JTree)
    (hf : ∀ p ∈ fs, cntTree (f p).2 ≤ cntTree p.2) :
    cntTree (JTree.obj (fs.map f)) ≤ cntTree (JTree.obj fs) := by
  induction fs with
  | nil => simp
  | cons q fs ih =>
      have h1 := hf q (List.mem_cons_self q fs)
      have h2 := ih (fun p hp => hf p (List.mem_cons_of_mem q hp))
      obtain ⟨a, t⟩ := q
      rcases hfq : f (a, t) with ⟨b, u⟩
      have h1' : cntTree u ≤ cntTree t := by simpa [hfq] using h1
      simp only [List.map_cons, hfq, cntTree]
      omega

theorem cntTree_obj_append (fs gs : AListOn JTree) :
    cntTree (JTree.obj (fs ++ gs)) + 1 = cntTree (JTree.obj fs) + cntTree (JTree.obj gs) := by
  induction fs with
  | nil =>
      simp only [List.nil_append, cntTree]
      omega
  | cons q fs ih =>
      obtain ⟨a, t⟩ := q
      simp only [List.cons_append, cntTree]
      omega

theorem cntTree_setFieldA_vl (m : AListOn JTree) (a : String) (v : JVal) :
    cntTree (JTree.obj (setFieldA m a (JTree.vl v))) ≤ cntTree (JTree.obj m) := by
  by_cases h : hasKeyA m a
  · rw [setFieldA, if_pos h]
    apply cntTree_obj_map_le
    intro p _
    by_cases hpa : p.1 = a
    · rw [if_pos (by simpa using hpa)]
      simp [cntTree]
    · rw [if_neg (by simpa using hpa)]
  · rw [setFieldA, if_neg h]
    have := cntTree_obj_append m [(a, JTree.vl v)]
    simp only [cntTree] at this ⊢
    omega

theorem cntTree_spreadA_toTree (e : JSObj) (m : AListOn JTree) :
    cntTree (JTree.obj (spreadA m (toTreeFields e))) ≤ cntTree (JTree.obj m) := by
  induction e generalizing m with
  | nil => simp [spreadA, toTreeFields]
  | cons q e ih =>
      rw [show toTreeFields (q :: e) = (q.1, JTree.vl q.2) :: toTreeFields e from rfl,
        spreadA_cons]
      exact le_trans (ih (setFieldA m q.1 (JTree.vl q.2)))
        (cntTree_setFieldA_vl m q.1 q.2)

/-- Own enumerable properties of a JS array, as spread by \x7b...arr\x7d:
its elements under their stringified indices. -/
def indexFields (startIdx : Nat) : List JTree → AListOn JTree
  | [] => []
  | t :: ts => (toString startIdx, t) :: indexFields (startIdx + 1) ts

/-- Action of the traversal of `inyectKeysToQueries` on the value of a
`queryKey` property it owns (source: the two `obj.queryKey = ...`
assignments).  A function is wrapped: the wrapper calls the original and
merges `extra` when the produced key is a truthy non-array object, returning
it unchanged otherwise.  A static object (arrays included: `typeof` is
`object` there and the source's `!Array.isArray` guard sits only inside the
wrapper) is replaced by itself spread with `extra` on top.  Scalars and
`undefined`/`null` are left alone (not objects / not truthy).  An opaque
non-key function would be wrapped by the source; the model's `ofn` marks
only the factory's `normalize` closures, which never sit under a `queryKey`
property, so it is left unchanged here. -/
def processSlot (extra : JSObj) : JTree → JTree
  | .fn f => .fn (fun a =>
      match f a with
      | .obj o => .obj (spreadA o (toTreeFields extra))
      | t => t)
  | .obj o => .obj (spreadA o (toTreeFields extra))
  | .arr l => .obj (spreadA (indexFields 0 l) (toTreeFields extra))
  | t => t

/-- The in-place update of the `queryKey` property when an object owns one
(the source mutates `obj.queryKey` and leaves every other property for the
recursion step). -/
def mergeSlotFields (extra : JSObj) (fields : AListOn JTree) : AListOn JTree :=
  if hasKeyA fields "queryKey" then
    fields.map (fun p =>
      if p.1 == "queryKey" then (p.1, processSlot extra p.2) else p)
  else fields

theorem cntTree_indexFields (l : List JTree) (i : Nat) :
    cntTree (JTree.obj (indexFields i l)) = cntTree (JTree.arr l) := by
  induction l generalizing i with
  | nil => simp [indexFields, cntTree]
  | cons t ts ih => simp only [indexFields, cntTree, ih (i + 1)]

theorem cntTree_processSlot_le (extra : JSObj) (t : JTree) :
    cntTree (processSlot extra t) ≤ cntTree t := by
  cases t with
  | vl v => simp [processSlot]
  | fn f => simp [processSlot, cntTree]
  | ofn => simp [processSlot]
  | obj o => exact cntTree_spreadA_toTree extra o
  | arr l =>
      have h1 := cntTree_spreadA_toTree extra (indexFields 0 l)
      rw [cntTree_indexFields l 0] at h1
      exact h1


theorem cntTree_lt_of_mem_mergeSlot (extra : JSObj) (fields : AListOn JTree)
    (p : String × JTree) (hp : p ∈ mergeSlotFields extra fields) :
    cntTree p.2 < cntTree (JTree.obj fields) := by
  rw [mergeSlotFields] at hp
  by_cases h : hasKeyA fields "queryKey"
  · rw [if_pos h] at hp
    obtain ⟨q, hq, hfq⟩ := List.mem_map.1 hp
    by_cases hq1 : q.1 = "queryKey"
    · rw [if_pos (by simpa using hq1)] at hfq
      rw [← hfq]
      exact Nat.lt_of_le_of_lt (cntTree_processSlot_le extra q.2)
        (cntTree_lt_of_mem_fields fields q hq)
    · rw [if_neg (by simpa using hq1)] at hfq
      rw [← hfq]
      exact cntTree_lt_of_mem_fields fields q hq
  · rw [if_neg h] at hp
    exact cntTree_lt_of_mem_fields fields p hp

/-- The recursive `process` helper of `inyectKeysToQueries`, transcribed in
the source's order: an array maps the traversal over its elements; an object
first rewrites its `queryKey` property in place when it owns one, then
recurses into every own property (the rewritten `queryKey` included, as the
source's `for..in` loop does); scalars and functions reached by the
recursion are returned unchanged (`typeof` is neither `object` nor an
array). -/
def process (extra : JSObj) : JTree → JTree
  | .arr l => .arr (l.attach.map (fun x => process extra x.1))
  | .obj fields =>
      .obj ((mergeSlotFields extra fields).attach.map
        (fun x => (x.1.1, process extra x.1.2)))
  | t => t
termination_by t => cntTree t
decreasing_by
  · exact cntTree_lt_of_mem_arr l x.1 x.2
  · exact cntTree_lt_of_mem_mergeSlot extra fields x.1 x.2

/-- Top-level `inyectKeysToQueries` of the source: apply the traversal to
the whole group object (the source mutates and returns its argument; the
model returns the processed graph). -/
def inyectKeysToQueries (queries : JTree) (extra : JSObj) : JTree :=
  process extra queries

theorem process_vl (extra : JSObj) (v : JVal) :
    process extra (JTree.vl v) = JTree.vl v := by
  rw [process]
  all_goals exact fun _ h => JTree.noConfusion h

theorem process_fn (extra : JSObj) (f : JVal → JTree) :
    process extra (JTree.fn f) = JTree.fn f := by
  rw [process]
  all_goals exact fun _ h => JTree.noConfusion h

theorem process_ofn (extra : JSObj) :
    process extra JTree.ofn = JTree.ofn := by
  rw [process]
  all_goals exact fun _ h => JTree.noConfusion h

theorem process_arr (extra : JSObj) (l : List JTree) :
    process extra (JTree.arr l) = JTree.arr (l.map (process extra)) := by
  rw [process]
  exact congrArg JTree.arr (List.attach_map_coe l (process extra))

theorem process_obj (extra : JSObj) (fields : AListOn JTree) :
    process extra (JTree.obj fields)
      = JTree.obj ((mergeSlotFields extra fields).map
          (fun p => (p.1, process extra p.2))) := by
  rw [process]
  exact congrArg JTree.obj
    (List.attach_map_coe (mergeSlotFields extra fields)
      (fun p => (p.1, process extra p.2)))

/-- Action of `inyectKeysToQueries` on a CRUD group: each operation owns a
`queryKey` property, so its static keys are replaced by themselves spread
with `extra` on top and its dynamic keys are wrapped to merge `extra` into
the produced key (always a plain object here); `invalidates` values, `type`
tags and `normalize` closures own no `queryKey` property and pass through
the traversal unchanged.  Faithfulness to the generic traversal is proved by
`process_crudTree` below. -/
def inyectKeysToQueriesCRUD (g : QueryGroupCRUD) (extra : JSObj) : QueryGroupCRUD where
  all := { g.all with queryKey := spreadA g.all.queryKey extra }
  list := { g.list with queryKey := spreadA g.list.queryKey extra }
  detail := { g.detail with queryKey := fun i => spreadA (g.detail.queryKey i) extra }
  create := { g.create with queryKey := spreadA g.create.queryKey extra }
  update := { g.update with queryKey := fun i => spreadA (g.update.queryKey i) extra }
  remove := { g.remove with queryKey := fun i => spreadA (g.remove.queryKey i) extra }

/-- The JS object graph the factory returns, rendered as a tree: property
layout and order exactly as in the source literals (`all` owns only
`queryKey`; `list` adds `type`; `detail` a dynamic key, `type` and
`normalize`; the mutations add `invalidates`).  `normalize` closures are
opaque function leaves.  The factory always populates `create.invalidates`,
so the `getD` default is never used on factory-built groups. -/
def crudTree (g : QueryGroupCRUD) : JTree :=
  JTree.obj
    [("all", JTree.obj [("queryKey", JTree.obj (toTreeFields g.all.queryKey))]),
     ("list", JTree.obj
       [("queryKey", JTree.obj (toTreeFields g.list.queryKey)),
        ("type", JTree.vl (JVal.s "query"))]),
     ("detail", JTree.obj
       [("queryKey", JTree.fn (fun i => JTree.obj (toTreeFields (g.detail.queryKey i)))),
        ("type", JTree.vl (JVal.s "query")),
        ("normalize", JTree.ofn)]),
     ("create", JTree.obj
       [("queryKey", JTree.obj (toTreeFields g.create.queryKey)),
        ("invalidates", JTree.obj (toTreeFields (g.create.invalidates.getD []))),
        ("type", JTree.vl (JVal.s "mutation")),
        ("normalize", JTree.ofn)]),
     ("update", JTree.obj
       [("queryKey", JTree.fn (fun i => JTree.obj (toTreeFields (g.update.queryKey i)))),
        ("invalidates", JTree.fn (fun i => JTree.arr
          ((g.update.invalidates i).map (fun k => JTree.obj (toTreeFields k))))),
        ("type", JTree.vl (JVal.s "mutation")),
        ("normalize", JTree.ofn)]),
     ("remove", JTree.obj
       [("queryKey", JTree.fn (fun i => JTree.obj (toTreeFields (g.remove.queryKey i)))),
        ("invalidates", JTree.fn (fun i => JTree.arr
          ((g.remove.invalidates i).map (fun k => JTree.obj (toTreeFields k))))),
        ("type", JTree.vl (JVal.s "mutation")),
        ("normalize", JTree.ofn)])]

theorem hasKeyA_toTreeFields (o : JSObj) (a : String) :
    hasKeyA (toTreeFields o) a = hasKeyA o a := by
  induction o with
  | nil => rfl
  | cons q o ih => simp [hasKeyA, toTreeFields] at ih ⊢; rw [ih]

theorem setFieldA_toTreeFields (o : JSObj) (a : String) (v : JVal) :
    setFieldA (toTreeFields o) a (JTree.vl v) = toTreeFields (setFieldA o a v) := by
  rw [setFieldA, setFieldA, hasKeyA_toTreeFields]
  by_cases h : hasKeyA o a
  · rw [if_pos h, if_pos h]
    unfold toTreeFields
    rw [List.map_map, List.map_map]
    apply List.map_congr_left
    intro p _
    by_cases hpa : p.1 = a
    · simp [hpa]
    · simp [hpa]
  · rw [if_neg h, if_neg h]
    simp [toTreeFields]

theorem spreadA_toTreeFields (e o : JSObj) :
    spreadA (toTreeFields o) (toTreeFields e) = toTreeFields (spreadA o e) := by
  induction e generalizing o with
  | nil => rfl
  | cons q e ih =>
      rw [show toTreeFields (q :: e) = (q.1, JTree.vl q.2) :: toTreeFields e from rfl]
      rw [spreadA_cons, spreadA_cons, setFieldA_toTreeFields]
      exact ih (setFieldA o q.1 q.2)

theorem mergeSlotFields_vl (extra : JSObj) (fs : AListOn JTree)
    (hv : ∀ p ∈ fs, ∃ v, p.2 = JTree.vl v) : mergeSlotFields extra fs = fs := by
  rw [mergeSlotFields]
  by_cases h : hasKeyA fs "queryKey"
  · rw [if_pos h]
    have hpt : ∀ p ∈ fs,
        (if p.1 == "queryKey" then (p.1, processSlot extra p.2) else p) = p := by
      intro p hp
      obtain ⟨v, hv2⟩ := hv p hp
      by_cases hq : p.1 = "queryKey"
      · rw [if_pos (by simpa using hq), hv2,
          show processSlot extra (JTree.vl v) = JTree.vl v from rfl, ← hv2]
      · rw [if_neg (by simpa using hq)]
    rw [List.map_congr_left hpt]
    simp
  · rw [if_neg h]

/-- A pure scalar-valued object (e.g. a cache key reached by the recursion
outside a `queryKey` slot) passes through the traversal unchanged. -/
theorem process_toTree (extra o : JSObj) :
    process extra (JTree.obj (toTreeFields o)) = JTree.obj (toTreeFields o) := by
  have hv : ∀ p ∈ toTreeFields o, ∃ v, p.2 = JTree.vl v := by
    intro p hp
    obtain ⟨q, hq, hfq⟩ := List.mem_map.1 hp
    exact ⟨q.2, by rw [← hfq]⟩
  rw [process_obj, mergeSlotFields_vl extra (toTreeFields o) hv]
  congr 1
  have hpt : ∀ p ∈ toTreeFields o, ((p.1 : String), process extra p.2) = p := by
    intro p hp
    obtain ⟨v, hv2⟩ := hv p hp
    rw [hv2, process_vl, ← hv2]
  rw [List.map_congr_left hpt]
  simp

theorem process_op_static1 (extra k : JSObj) :
    process extra (JTree.obj [("queryKey", JTree.obj (toTreeFields k))])
      = JTree.obj [("queryKey", JTree.obj (toTreeFields (spreadA k extra)))] := by
  rw [process_obj]
  have hm : mergeSlotFields extra [("queryKey", JTree.obj (toTreeFields k))]
      = [("queryKey", JTree.obj (spreadA (toTreeFields k) (toTreeFields extra)))] := by
    rw [mergeSlotFields, if_pos (by simp [hasKeyA])]
    simp [processSlot]
  rw [hm, spreadA_toTreeFields]
  simp [process_toTree]

theorem process_op_static2 (extra k : JSObj) (ty : String) :
    process extra (JTree.obj
      [("queryKey", JTree.obj (toTreeFields k)), ("type", JTree.vl (JVal.s ty))])
      = JTree.obj [("queryKey", JTree.obj (toTreeFields (spreadA k extra))),
          ("type", JTree.vl (JVal.s ty))] := by
  rw [process_obj]
  have hm : mergeSlotFields extra
      [("queryKey", JTree.obj (toTreeFields k)), ("type", JTree.vl (JVal.s ty))]
      = [("queryKey", JTree.obj (spreadA (toTreeFields k) (toTreeFields extra))),
         ("type", JTree.vl (JVal.s ty))] := by
    rw [mergeSlotFields, if_pos (by simp [hasKeyA])]
    simp [processSlot]
  rw [hm, spreadA_toTreeFields]
  simp [process_toTree, process_vl]

theorem process_op_create (extra k inv : JSObj) :
    process extra (JTree.obj
      [("queryKey", JTree.obj (toTreeFields k)),
       ("invalidates", JTree.obj (toTreeFields inv)),
       ("type", JTree.vl (JVal.s "mutation")), ("normalize", JTree.ofn)])
      = JTree.obj
        [("queryKey", JTree.obj (toTreeFields (spreadA k extra))),
         ("invalidates", JTree.obj (toTreeFields inv)),
         ("type", JTree.vl (JVal.s "mutation")), ("normalize", JTree.ofn)] := by
  rw [process_obj]
  have hm : mergeSlotFields extra
      [("queryKey", JTree.obj (toTreeFields k)),
       ("invalidates", JTree.obj (toTreeFields inv)),
       ("type", JTree.vl (JVal.s "mutation")), ("normalize", JTree.ofn)]
      = [("queryKey", JTree.obj (spreadA (toTreeFields k) (toTreeFields extra))),
         ("invalidates", JTree.obj (toTreeFields inv)),
         ("type", JTree.vl (JVal.s "mutation")), ("normalize", JTree.ofn)] := by
    rw [mergeSlotFields, if_pos (by simp [hasKeyA])]
    simp [processSlot]
  rw [hm, spreadA_toTreeFields]
  simp [process_toTree, process_vl, process_ofn]

theorem processSlot_fnKey (extra : JSObj) (f : JVal → JSObj) :
    processSlot extra (JTree.fn (fun i => JTree.obj (toTreeFields (f i))))
      = JTree.fn (fun i => JTree.obj (toTreeFields (spreadA (f i) extra))) := by
  rw [processSlot]
  congr 1
  funext a
  show JTree.obj (spreadA (toTreeFields (f a)) (toTreeFields extra)) = _
  rw [spreadA_toTreeFields]

theorem process_op_detail (extra : JSObj) (f : JVal → JSObj) :
    process extra (JTree.obj
      [("queryKey", JTree.fn (fun i => JTree.obj (toTreeFields (f i)))),
       ("type", JTree.vl (JVal.s "query")), ("normalize", JTree.ofn)])
      = JTree.obj
        [("queryKey", JTree.fn (fun i => JTree.obj (toTreeFields (spreadA (f i) extra)))),
         ("type", JTree.vl (JVal.s "query")), ("normalize", JTree.ofn)] := by
  rw [process_obj]
  have hm : mergeSlotFields extra
      [("queryKey", JTree.fn (fun i => JTree.obj (toTreeFields (f i)))),
       ("type", JTree.vl (JVal.s "query")), ("normalize", JTree.ofn)]
      = [("queryKey", JTree.fn (fun i => JTree.obj (toTreeFields (spreadA (f i) extra)))),
         ("type", JTree.vl (JVal.s "query")), ("normalize", JTree.ofn)] := by
    rw [mergeSlotFields, if_pos (by simp [hasKeyA])]
    simp only [List.map_cons, List.map_nil]
    rw [processSlot_fnKey]
    simp
  rw [hm]
  simp [process_fn, process_vl, process_ofn]

theorem process_op_mutation (extra : JSObj) (f : JVal → JSObj)
    (inv : JVal → List JSObj) :
    process extra (JTree.obj
      [("queryKey", JTree.fn (fun i => JTree.obj (toTreeFields (f i)))),
       ("invalidates", JTree.fn (fun i => JTree.arr
         ((inv i).map (fun k => JTree.obj (toTreeFields k))))),
       ("type", JTree.vl (JVal.s "mutation")), ("normalize", JTree.ofn)])
      = JTree.obj
        [("queryKey", JTree.fn (fun i => JTree.obj (toTreeFields (spreadA (f i) extra)))),
         ("invalidates", JTree.fn (fun i => JTree.arr
           ((inv i).map (fun k => JTree.obj (toTreeFields k))))),
         ("type", JTree.vl (JVal.s "mutation")), ("normalize", JTree.ofn)] := by
  rw [process_obj]
  have hm : mergeSlotFields extra
      [("queryKey", JTree.fn (fun i => JTree.obj (toTreeFields (f i)))),
       ("invalidates", JTree.fn (fun i => JTree.arr
         ((inv i).map (fun k => JTree.obj (toTreeFields k))))),
       ("type", JTree.vl (JVal.s "mutation")), ("normalize", JTree.ofn)]
      = [("queryKey", JTree.fn (fun i => JTree.obj (toTreeFields (spreadA (f i) extra)))),
         ("invalidates", JTree.fn (fun i => JTree.arr
           ((inv i).map (fun k => JTree.obj (toTreeFields k))))),
         ("type", JTree.vl (JVal.s "mutation")), ("normalize", JTree.ofn)] := by
    rw [mergeSlotFields, if_pos (by simp [hasKeyA])]
    simp only [List.map_cons, List.map_nil]
    rw [processSlot_fnKey]
    simp
  rw [hm]
  simp [process_fn, process_vl, process_ofn]

/-- The generic traversal `inyectKeysToQueries` acts on the rendered CRUD
group exactly as the structure-level `inyectKeysToQueriesCRUD`: every
`queryKey` (static or wrapped dynamic) is merged with `extra`, everything
else — `invalidates` keys and key functions, `type` tags, `normalize`
closures — passes through unchanged. -/
theorem process_crudTree (g : QueryGroupCRUD) (extra : JSObj) :
    inyectKeysToQueries (crudTree g) extra
      = crudTree (inyectKeysToQueriesCRUD g extra) := by
  rw [inyectKeysToQueries, crudTree, process_obj]
  rw [mergeSlotFields, if_neg (by simp [hasKeyA])]
  simp only [List.map_cons, List.map_nil]
  rw [process_op_static1, process_op_static2, process_op_detail, process_op_create,
    process_op_mutation, process_op_mutation]
  rfl

/-- Reading an own property of an object node (`none` elsewhere). -/
def treeField : JTree → String → Option JTree
  | .obj fs, a => lookupA fs a
  | _, _ => none

/-- Reading `group[op][field]` in the object graph. -/
def treeOpField (t : JTree) (op field : String) : Option JTree :=
  (treeField t op).bind (fun u => treeField u field)

/-- Calling a function-valued node with one identifier argument. -/
def applyTreeFn (t : Option JTree) (i : JVal) : Option JTree :=
  match t with
  | some (JTree.fn f) => some (f i)
  | _ => none

/-- C3 counterexample: injecting `\x7bauth: true\x7d` into the CRUD group
for entity `e` leaves `create.invalidates` exactly the original
`\x7bentity: e, method: list\x7d`; no `auth` field is stamped into it,
refuting the claim that the injector merges the extra fields into every
reachable cache key including those stored in `invalidates` properties. -/
theorem inyect_invalidates_unmerged_cx :
    treeOpField (inyectKeysToQueries (crudTree (createQueryGroupCRUD "e"))
        [("auth", JVal.b true)]) "create" "invalidates"
      = some (JTree.obj [("entity", JTree.vl (JVal.s "e")),
          ("method", JTree.vl (JVal.s "list"))]) ∧
    (treeOpField (inyectKeysToQueries (crudTree (createQueryGroupCRUD "e"))
        [("auth", JVal.b true)]) "create" "invalidates").bind
        (fun t => treeField t "auth")
      = none := by
  rw [process_crudTree]
  constructor
  · simp [treeOpField, treeField, crudTree, inyectKeysToQueriesCRUD,
      createQueryGroupCRUD, lookupA, toTreeFields]
  · simp [treeOpField, treeField, crudTree, inyectKeysToQueriesCRUD,
      createQueryGroupCRUD, lookupA, toTreeFields]

/-- C3 (amended): for every entity name and scalar-valued extra mapping, the
injector merges `extra` into exactly the cache keys stored under `queryKey`
properties — static ones are replaced by the spread-merge, dynamic ones are
wrapped so the key produced for any identifier is merged — while the keys
stored in `invalidates` properties and the keys produced by `invalidates`
functions pass through the traversal unmerged. -/
theorem inyect_merges_only_queryKeys (E : String) (extra : JSObj) (i : JVal) :
    treeOpField (inyectKeysToQueries (crudTree (createQueryGroupCRUD E)) extra)
        "all" "queryKey"
      = some (JTree.obj (toTreeFields (spreadA [("entity", JVal.s E)] extra))) ∧
    treeOpField (inyectKeysToQueries (crudTree (createQueryGroupCRUD E)) extra)
        "list" "queryKey"
      = some (JTree.obj (toTreeFields
          (spreadA [("entity", JVal.s E), ("method", JVal.s "list")] extra))) ∧
    treeOpField (inyectKeysToQueries (crudTree (createQueryGroupCRUD E)) extra)
        "create" "queryKey"
      = some (JTree.obj (toTreeFields
          (spreadA [("entity", JVal.s E), ("method", JVal.s "create")] extra))) ∧
    applyTreeFn (treeOpField (inyectKeysToQueries (crudTree (createQueryGroupCRUD E))
        extra) "detail" "queryKey") i
      = some (JTree.obj (toTreeFields
          (spreadA [("entity", JVal.s E), ("method", JVal.s "detail"), ("id", i)]
            extra))) ∧
    applyTreeFn (treeOpField (inyectKeysToQueries (crudTree (createQueryGroupCRUD E))
        extra) "update" "queryKey") i
      = some (JTree.obj (toTreeFields
          (spreadA [("entity", JVal.s E), ("method", JVal.s "update"), ("id", i)]
            extra))) ∧
    applyTreeFn (treeOpField (inyectKeysToQueries (crudTree (createQueryGroupCRUD E))
        extra) "remove" "queryKey") i
      = some (JTree.obj (toTreeFields
          (spreadA [("entity", JVal.s E), ("method", JVal.s "remove"), ("id", i)]
            extra))) ∧
    treeOpField (inyectKeysToQueries (crudTree (createQueryGroupCRUD E)) extra)
        "create" "invalidates"
      = some (JTree.obj (toTreeFields
          [("entity", JVal.s E), ("method", JVal.s "list")])) ∧
    applyTreeFn (treeOpField (inyectKeysToQueries (crudTree (createQueryGroupCRUD E))
        extra) "update" "invalidates") i
      = some (JTree.arr
          [JTree.obj (toTreeFields [("entity", JVal.s E), ("id", i)]),
           JTree.obj (toTreeFields
             [("entity", JVal.s E), ("method", JVal.s "list")])]) ∧
    applyTreeFn (treeOpField (inyectKeysToQueries (crudTree (createQueryGroupCRUD E))
        extra) "remove" "invalidates") i
      = some (JTree.arr
          [JTree.obj (toTreeFields [("entity", JVal.s E), ("id", i)]),
           JTree.obj (toTreeFields
             [("entity", JVal.s E), ("method", JVal.s "list")])]) := by
  rw [process_crudTree]
  refine ⟨?_, ?_, ?_, ?_, ?_, ?_, ?_, ?_, ?_⟩ <;>
    simp [treeOpField, treeField, applyTreeFn, crudTree, inyectKeysToQueriesCRUD,
      createQueryGroupCRUD, lookupA]

/-- C4: end to end, injecting `\x7bauth: true\x7d` into the CRUD group for
`accounts` turns `list.queryKey` into `\x7bentity, method: list, auth\x7d`
and `detail.queryKey("42")` into `\x7bentity, method: detail, id: "42",
auth\x7d`; in general every static queryKey becomes the original spread with
`extra` on top, every dynamic queryKey produces its original key spread with
`extra`, and on a field named in `extra` the merged key carries `extra`'s
value (extra wins on conflict). -/
theorem inyect_end_to_end :
    (inyectKeysToQueriesCRUD (createQueryGroupCRUD "accounts")
        [("auth", JVal.b true)]).list.queryKey
      = [("entity", JVal.s "accounts"), ("method", JVal.s "list"),
         ("auth", JVal.b true)] ∧
    (inyectKeysToQueriesCRUD (createQueryGroupCRUD "accounts")
        [("auth", JVal.b true)]).detail.queryKey (JVal.s "42")
      = [("entity", JVal.s "accounts"), ("method", JVal.s "detail"),
         ("id", JVal.s "42"), ("auth", JVal.b true)] ∧
    (∀ (E : String) (extra : JSObj) (i : JVal),
      (inyectKeysToQueriesCRUD (createQueryGroupCRUD E) extra).all.queryKey
        = spreadA ((createQueryGroupCRUD E).all.queryKey) extra ∧
      (inyectKeysToQueriesCRUD (createQueryGroupCRUD E) extra).list.queryKey
        = spreadA ((createQueryGroupCRUD E).list.queryKey) extra ∧
      (inyectKeysToQueriesCRUD (createQueryGroupCRUD E) extra).create.queryKey
        = spreadA ((createQueryGroupCRUD E).create.queryKey) extra ∧
      (inyectKeysToQueriesCRUD (createQueryGroupCRUD E) extra).detail.queryKey i
        = spreadA ((createQueryGroupCRUD E).detail.queryKey i) extra ∧
      (inyectKeysToQueriesCRUD (createQueryGroupCRUD E) extra).update.queryKey i
        = spreadA ((createQueryGroupCRUD E).update.queryKey i) extra ∧
      (inyectKeysToQueriesCRUD (createQueryGroupCRUD E) extra).remove.queryKey i
        = spreadA ((createQueryGroupCRUD E).remove.queryKey i) extra) ∧
    (∀ (E : String) (extra : JSObj) (a : String) (v : JVal),
      (extra.map Prod.fst).Nodup → lookupA extra a = some v →
      lookupA ((inyectKeysToQueriesCRUD (createQueryGroupCRUD E) extra).list.queryKey)
        a = some v) := by
  refine ⟨by decide, by decide, fun E extra i => ⟨rfl, rfl, rfl, rfl, rfl, rfl⟩,
    fun E extra a v hnd hv => ?_⟩
  exact lookupA_spreadA_right extra _ a v hnd hv

/-- C4 witness: the extra-wins conjunct applied at `accounts` with
`\x7bauth: true\x7d` on the field `auth`. -/
theorem inyect_end_to_end_witness :
    lookupA ((inyectKeysToQueriesCRUD (createQueryGroupCRUD "accounts")
        [("auth", JVal.b true)]).list.queryKey) "auth" = some (JVal.b true) :=
  inyect_end_to_end.2.2.2 "accounts" [("auth", JVal.b true)] "auth" (JVal.b true)
    (by decide) (by decide)

/-- C8: applying the injector twice with the same extra mapping (a JS
object, hence with no duplicate field names) yields the same keys as
applying it once — every static queryKey is unchanged by the second pass,
every wrapped dynamic queryKey returns the once-injected key for any
identifier, the doubly injected list key carries each field exactly once,
and the twice-processed object graph is precisely the rendering of the
twice-injected group (the model's functions are total, so no exception can
arise on double injection). -/
theorem inyect_twice_eq_once (E : String) (extra : JSObj) (i : JVal)
    (hnd : (extra.map Prod.fst).Nodup) :
    (inyectKeysToQueriesCRUD (inyectKeysToQueriesCRUD (createQueryGroupCRUD E)
        extra) extra).all.queryKey
      = (inyectKeysToQueriesCRUD (createQueryGroupCRUD E) extra).all.queryKey ∧
    (inyectKeysToQueriesCRUD (inyectKeysToQueriesCRUD (createQueryGroupCRUD E)
        extra) extra).list.queryKey
      = (inyectKeysToQueriesCRUD (createQueryGroupCRUD E) extra).list.queryKey ∧
    (inyectKeysToQueriesCRUD (inyectKeysToQueriesCRUD (createQueryGroupCRUD E)
        extra) extra).create.queryKey
      = (inyectKeysToQueriesCRUD (createQueryGroupCRUD E) extra).create.queryKey ∧
    (inyectKeysToQueriesCRUD (inyectKeysToQueriesCRUD (createQueryGroupCRUD E)
        extra) extra).detail.queryKey i
      = (inyectKeysToQueriesCRUD (createQueryGroupCRUD E) extra).detail.queryKey i ∧
    (inyectKeysToQueriesCRUD (inyectKeysToQueriesCRUD (createQueryGroupCRUD E)
        extra) extra).update.queryKey i
      = (inyectKeysToQueriesCRUD (createQueryGroupCRUD E) extra).update.queryKey i ∧
    (inyectKeysToQueriesCRUD (inyectKeysToQueriesCRUD (createQueryGroupCRUD E)
        extra) extra).remove.queryKey i
      = (inyectKeysToQueriesCRUD (createQueryGroupCRUD E) extra).remove.queryKey i ∧
    (((inyectKeysToQueriesCRUD (inyectKeysToQueriesCRUD (createQueryGroupCRUD E)
        extra) extra).list.queryKey).map Prod.fst).Nodup ∧
    inyectKeysToQueries (inyectKeysToQueries (crudTree (createQueryGroupCRUD E))
        extra) extra
      = crudTree (inyectKeysToQueriesCRUD (inyectKeysToQueriesCRUD
          (createQueryGroupCRUD E) extra) extra) := by
  refine ⟨spreadA_spreadA_self extra _ hnd, spreadA_spreadA_self extra _ hnd,
    spreadA_spreadA_self extra _ hnd, spreadA_spreadA_self extra _ hnd,
    spreadA_spreadA_self extra _ hnd, spreadA_spreadA_self extra _ hnd, ?_, ?_⟩
  · refine nodupKeys_spreadA extra _ (nodupKeys_spreadA extra _ ?_)
    show (["entity", "method"] : List String).Nodup
    decide
  · rw [process_crudTree, process_crudTree]

/-- C8 witness: double injection of `\x7bauth: true\x7d` for entity `e`: the
twice-injected list key equals the once-injected one and its field names are
pairwise distinct (auth present exactly once). -/
theorem inyect_twice_eq_once_witness :
    (inyectKeysToQueriesCRUD (inyectKeysToQueriesCRUD (createQueryGroupCRUD "e")
        [("auth", JVal.b true)]) [("auth", JVal.b true)]).list.queryKey
      = (inyectKeysToQueriesCRUD (createQueryGroupCRUD "e")
          [("auth", JVal.b true)]).list.queryKey ∧
    (inyectKeysToQueriesCRUD (inyectKeysToQueriesCRUD (createQueryGroupCRUD "e")
        [("auth", JVal.b true)]) [("auth", JVal.b true)]).detail.queryKey
        (JVal.s "1")
      = (inyectKeysToQueriesCRUD (createQueryGroupCRUD "e")
          [("auth", JVal.b true)]).detail.queryKey (JVal.s "1") ∧
    (((inyectKeysToQueriesCRUD (inyectKeysToQueriesCRUD (createQueryGroupCRUD "e")
        [("auth", JVal.b true)]) [("auth", JVal.b true)]).list.queryKey).map
        Prod.fst).Nodup := by
  have h := inyect_twice_eq_once "e" [("auth", JVal.b true)] (JVal.s "1")
    (by decide)
  exact ⟨h.2.1, h.2.2.2.1, h.2.2.2.2.2.2.1⟩

/-- C9: after injection the normalize callbacks resolve the sibling
operations' current (injected) keys at call time: the list key the closures
read is the injected static list key, the detail key is produced by the
wrapped (injected) detail function, and `create.normalize` therefore writes
the injected list and detail slots — while a pre-injection list slot,
when distinct from both injected slots, is left untouched. -/
theorem normalize_uses_injected_keys (E : String) (extra : JSObj) (data : JSObj)
    (ι : JVal) (c : Cache) (hid : lookupA data "id" = some ι) :
    resolveKey (KeyOrFn.key (inyectKeysToQueriesCRUD (createQueryGroupCRUD E)
        extra).list.queryKey) []
      = spreadA [("entity", JVal.s E), ("method", JVal.s "list")] extra ∧
    resolveKey (KeyOrFn.fn (inyectKeysToQueriesCRUD (createQueryGroupCRUD E)
        extra).detail.queryKey) [ι]
      = spreadA [("entity", JVal.s E), ("method", JVal.s "detail"), ("id", ι)]
          extra ∧
    (spreadA [("entity", JVal.s E), ("method", JVal.s "list")] extra
        ≠ spreadA [("entity", JVal.s E), ("method", JVal.s "detail"), ("id", ι)]
            extra →
      c.read [spreadA [("entity", JVal.s E), ("method", JVal.s "list")] extra]
        = none →
      (create_normalize (inyectKeysToQueriesCRUD (createQueryGroupCRUD E) extra)
          data c).read
          [spreadA [("entity", JVal.s E), ("method", JVal.s "list")] extra]
        = some (CacheData.items [data]) ∧
      (create_normalize (inyectKeysToQueriesCRUD (createQueryGroupCRUD E) extra)
          data c).read
          [spreadA [("entity", JVal.s E), ("method", JVal.s "detail"), ("id", ι)]
            extra]
        = some (CacheData.item data)) ∧
    (¬ [("entity", JVal.s E), ("method", JVal.s "list")]
        = spreadA [("entity", JVal.s E), ("method", JVal.s "list")] extra →
      ¬ [("entity", JVal.s E), ("method", JVal.s "list")]
        = spreadA [("entity", JVal.s E), ("method", JVal.s "detail"), ("id", ι)]
            extra →
      (create_normalize (inyectKeysToQueriesCRUD (createQueryGroupCRUD E) extra)
          data c).read [[("entity", JVal.s E), ("method", JVal.s "list")]]
        = c.read [[("entity", JVal.s E), ("method", JVal.s "list")]]) := by
  have hg : getJ data "id" = ι := by simp [getJ, hid]
  have hform : create_normalize
      (inyectKeysToQueriesCRUD (createQueryGroupCRUD E) extra) data c =
      setQueryData
        (setQueryDataWith c
          [spreadA [("entity", JVal.s E), ("method", JVal.s "list")] extra]
          (fun old =>
            match old with
            | none => some (CacheData.items [data])
            | some (CacheData.items l) => some (CacheData.items (l ++ [data]))
            | some d => some d))
        [spreadA [("entity", JVal.s E), ("method", JVal.s "detail"), ("id", ι)]
          extra]
        (some (CacheData.item data)) := by
    simp [create_normalize, resolveKey, inyectKeysToQueriesCRUD,
      createQueryGroupCRUD, hg]
  refine ⟨rfl, rfl, fun hkeys h0 => ?_, fun h1 h2 => ?_⟩
  · have hne : [spreadA [("entity", JVal.s E), ("method", JVal.s "list")] extra]
        ≠ ([spreadA [("entity", JVal.s E), ("method", JVal.s "detail"), ("id", ι)]
            extra] : List JSObj) := by
      intro hc
      exact hkeys (List.cons.inj hc).1
    rw [hform]
    refine ⟨?_, ?_⟩
    · rw [read_setQueryData_of_ne _ _ _ _ hne, read_setQueryDataWith_self, h0]
    · rw [read_setQueryData_self]
  · have hne1 : ([[("entity", JVal.s E), ("method", JVal.s "list")]] : List JSObj)
        ≠ [spreadA [("entity", JVal.s E), ("method", JVal.s "list")] extra] := by
      intro hc
      exact h1 (List.cons.inj hc).1
    have hne2 : ([[("entity", JVal.s E), ("method", JVal.s "list")]] : List JSObj)
        ≠ [spreadA [("entity", JVal.s E), ("method", JVal.s "detail"), ("id", ι)]
            extra] := by
      intro hc
      exact h2 (List.cons.inj hc).1
    rw [hform]
    rw [read_setQueryData_of_ne _ _ _ _ hne2, read_setQueryDataWith_of_ne _ _ _ _ hne1]

/-- C9 witness: entity `accounts`, extra `\x7bauth: true\x7d`, result
`\x7bid: 1\x7d`, empty cache: `create.normalize` of the injected group
writes the injected list and detail slots. -/
theorem normalize_uses_injected_keys_witness :
    (create_normalize (inyectKeysToQueriesCRUD (createQueryGroupCRUD "accounts")
        [("auth", JVal.b true)]) [("id", JVal.s "1")] []).read
        [spreadA [("entity", JVal.s "accounts"), ("method", JVal.s "list")]
          [("auth", JVal.b true)]]
      = some (CacheData.items [[("id", JVal.s "1")]]) ∧
    (create_normalize (inyectKeysToQueriesCRUD (createQueryGroupCRUD "accounts")
        [("auth", JVal.b true)]) [("id", JVal.s "1")] []).read
        [spreadA [("entity", JVal.s "accounts"), ("method", JVal.s "detail"),
          ("id", JVal.s "1")] [("auth", JVal.b true)]]
      = some (CacheData.item [("id", JVal.s "1")]) :=
  (normalize_uses_injected_keys "accounts" [("auth", JVal.b true)]
    [("id", JVal.s "1")] (JVal.s "1") [] (by decide)).2.2.1 (by decide) (by decide)

/-- C10: when the options mapping passed to `invalidateQueriesForKeys`
itself binds `queryKey`, that binding overrides the per-entry key in every
forwarded engine call, because the options are spread after the key into
the filter object: every emitted filter resolves `queryKey` to the options'
value, whatever key was iterated. -/
theorem invalidateOptions_queryKey_overrides (keys : List (Option JSObj))
    (opts : QFilter) (w : FVal) (hnd : (opts.map Prod.fst).Nodup)
    (hw : lookupA opts "queryKey" = some w) :
    ∀ f ∈ invalidateQueriesForKeys keys opts, lookupA f "queryKey" = some w := by
  intro f hf
  induction keys with
  | nil => cases hf
  | cons k ks ih =>
      cases k with
      | none =>
          rw [invalidateQueriesForKeys] at hf
          exact ih hf
      | some k =>
          rw [invalidateQueriesForKeys] at hf
          rcases List.mem_cons.1 hf with rfl | hf'
          · exact lookupA_spreadA_right opts _ "queryKey" w hnd hw
          · exact ih hf'

/-- C10 witness: options `\x7bqueryKey: [\x7bentity: b\x7d]\x7d` override
the iterated key `\x7bentity: a\x7d` in the single forwarded call. -/
theorem invalidateOptions_queryKey_overrides_witness :
    lookupA (mkInvalidateFilter [("entity", JVal.s "a")]
        [("queryKey", FVal.keys [[("entity", JVal.s "b")]])]) "queryKey"
      = some (FVal.keys [[("entity", JVal.s "b")]]) :=
  invalidateOptions_queryKey_overrides [some [("entity", JVal.s "a")]]
    [("queryKey", FVal.keys [[("entity", JVal.s "b")]])]
    (FVal.keys [[("entity", JVal.s "b")]]) (by decide) (by decide)
    (mkInvalidateFilter [("entity", JVal.s "a")]
      [("queryKey", FVal.keys [[("entity", JVal.s "b")]])])
    (by rw [invalidateQueriesForKeys]; exact List.mem_cons_self _ _)
